import Mathlib

/-!
Verification of the AVL tree implementation in `src/avl_tree.rs`.

The Rust code stores nodes behind raw pointers (`Link<T> = Option<NonNull<Node<T>>>`).
We embed a link as an inductive tree: `Link.nil` models `None` (absent subtree) and
`Link.node value left right height` models a pointer to a `Node` with its four fields,
`height` being the *cached* height field.  All operations below are translated from
the Rust source; iterative pointer loops become structural recursions with the same
comparison and update order.
-/

universe u

/-- A link between nodes in a tree (`type Link<T> = Option<NonNull<Node<T>>>`):
either absent or a node with its `value`, `left`, `right` and cached `height` fields. -/
inductive Link (α : Type u) where
  | nil : Link α
  | node (value : α) (left : Link α) (right : Link α) (height : Nat) : Link α
deriving DecidableEq, Repr

namespace Link

variable {α : Type u}

/-- The cached height field of the node a link points to, or 0 when the link is absent
(this is the `map_or(0, |n| n.height)` pattern used by `left_height`/`right_height`). -/
def cachedHeight : Link α → Nat
  | nil => 0
  | node _ _ _ h => h

/-- `Node::left_height`: the cached height of the left subtree if it exists, else 0.
(On `nil` the Rust method does not exist; we return 0, the value is never used.) -/
def left_height : Link α → Nat
  | nil => 0
  | node _ l _ _ => cachedHeight l

/-- `Node::right_height`: the cached height of the right subtree if it exists, else 0. -/
def right_height : Link α → Nat
  | nil => 0
  | node _ _ r _ => cachedHeight r

/-- `Node::update_height`: sets the height field to 1 + the greater cached height of
the children. -/
def update_height : Link α → Link α
  | nil => nil
  | node v l r _ => node v l r (1 + max (cachedHeight l) (cachedHeight r))

/-- `Node::balance_factor`: branches on `left_height >= right_height` so that each
unsigned subtraction is performed without underflow, then negates the second case.
The Rust code casts the difference to `i8`; the cast is lossless whenever the
difference is below 128, which holds in every reachable tree, so we return the
mathematical integer. -/
def balance_factor (t : Link α) : Int :=
  let lh := t.left_height
  let rh := t.right_height
  if lh ≥ rh then ((lh - rh : Nat) : Int) else -(((rh - lh : Nat) : Int))

/-- `Node::rotate_right`: with no left child, a no-op returning `false`; otherwise the
left child's value moves to the subtree root, the former root value moves to the new
right child, the left child's former right subtree becomes the new right child's left
subtree, and heights are recomputed for the moved-down node first, then the new root.
The intermediate height fields (`lh` on the relocated node, `h` on the root) mirror the
fields left in place by the Rust code before its two `update_height` calls. -/
def rotate_right : Link α → Link α × Bool
  | nil => (nil, false)
  | node v l r h =>
    match l with
    | nil => (node v nil r h, false)
    | node lv ll lr lh =>
      let new_right := update_height (node v lr r lh)
      (update_height (node lv ll new_right h), true)

/-- `Node::rotate_left`: mirror image of `rotate_right`, requiring a present right
child. -/
def rotate_left : Link α → Link α × Bool
  | nil => (nil, false)
  | node v l r h =>
    match r with
    | nil => (node v l nil h, false)
    | node rv rl rr rh =>
      let new_left := update_height (node v l rl rh)
      (update_height (node rv new_left rr h), true)

/-- `Node::rebalance`: dispatch on the balance factor.  At `-2` the node is
right-heavy: when the right child is left-heavy (balance factor `+1`) that child is
first rotated right, then the node is rotated left; `+2` is symmetric; any other
factor is a no-op returning `false`.  (The Rust code unwraps the heavy child; a
balance factor of `±2` guarantees it is present, so the `nil` constructor branch is
unreachable there.) -/
def rebalance : Link α → Link α × Bool
  | nil => (nil, false)
  | node v l r h =>
    if balance_factor (node v l r h) = -2 then
      let r' := if balance_factor r = 1 then (rotate_right r).1 else r
      ((rotate_left (node v l r' h)).1, true)
    else if balance_factor (node v l r h) = 2 then
      let l' := if balance_factor l = -1 then (rotate_left l).1 else l
      ((rotate_right (node v l' r h)).1, true)
    else (node v l r h, false)

end Link

namespace AvlTree

variable {α : Type u} [LinearOrder α]

open Link

/-- `AvlTree::new`: a tree with no root. -/
def new : Link α := Link.nil

/-- `Default::default` for `AvlTree`: also a tree with no root. -/
def defaultTree : Link α := Link.nil

/-- `AvlTree::insert`: the Rust code descends from the root recording the visited
ancestors (`prev_ptrs`), going left on `Ordering::Greater` (node value > inserted
value), returning `false` unchanged on `Equal`, right on `Less`; it attaches a fresh
leaf of height 1 at the absent link reached, then walks the recorded ancestors
deepest-first calling `update_height` then `rebalance` on each.  That
loop-with-explicit-stack is exactly this structural recursion: each ancestor performs
its fix-up after its subtree's call returns. -/
def insert (t : Link α) (value : α) : Link α × Bool :=
  match t with
  | nil => (node value nil nil 1, true)
  | node w l r h =>
    if value < w then
      match insert l value with
      | (l', true) => ((rebalance (update_height (node w l' r h))).1, true)
      | (_, false) => (node w l r h, false)
    else if w < value then
      match insert r value with
      | (r', true) => ((rebalance (update_height (node w l r' h))).1, true)
      | (_, false) => (node w l r h, false)
    else (node w l r h, false)

/-- `AvlTree::contains`: the same three-way descent as `insert`, returning `true` on
an equal node and `false` at an absent link. -/
def contains (t : Link α) (value : α) : Bool :=
  match t with
  | nil => false
  | node w l r _ =>
    if value < w then contains l value
    else if w < value then contains r value
    else true

/-- `FromIterator::from_iter`: start from `new` and insert every value in order,
discarding the success flags. -/
def from_iter (vs : List α) : Link α :=
  vs.foldl (fun t v => (insert t v).1) new

end AvlTree

namespace Link

variable {α : Type u}

/-- One step of `Iter::next` (`src/avl_tree.rs` lines 319-351), taking the
`prev_nodes` stack and the `current_tree` cursor.  The inner `loop` re-enters only in
the push-left case, where the cursor descends to the left child, so the loop is a
structural recursion on the cursor.  Returns `none` when the iterator is exhausted,
otherwise the emitted value and the next state. -/
def iterNext (stack : List (Link α)) : Link α → Option (α × List (Link α) × Link α)
  | nil =>
    match stack with
    | [] => none
    | nil :: _ => none
    | node pv _ pr _ :: rest => some (pv, rest, pr)
  | node v l r h =>
    match l with
    | node .. => iterNext (node v l r h :: stack) l
    | nil =>
      match r with
      | node .. => some (v, stack, r)
      | nil => some (v, stack, nil)

/-- The weight of an iterator state: every emission strictly decreases it, so it
bounds the number of values the iterator can still produce. -/
def size : Link α → Nat
  | nil => 0
  | node _ l r _ => 1 + size l + size r

/-- Weight contributed by one stacked ancestor: itself plus its right subtree. -/
def stackWeight : Link α → Nat
  | nil => 0
  | node _ _ r _ => 1 + size r

/-- Total weight of an iterator state. -/
def iterWeight (stack : List (Link α)) (cur : Link α) : Nat :=
  size cur + (stack.map stackWeight).sum

/-- Driving the iterator with explicit fuel; `iterWeight` many steps always suffice
(proved below), so `iter` instantiates the fuel accordingly. -/
def iterLoop : Nat → List (Link α) → Link α → List α
  | 0, _, _ => []
  | fuel + 1, stack, cur =>
    match iterNext stack cur with
    | none => []
    | some (v, stack', cur') => v :: iterLoop fuel stack' cur'

/-- `AvlTree::iter`: run the iterator from the initial state (empty `prev_nodes`
stack, cursor at the root) to exhaustion. -/
def iter (t : Link α) : List α :=
  iterLoop (iterWeight [] t + 1) [] t

/-- `AvlTree::len`: the count of elements produced by `iter`. -/
def len (t : Link α) : Nat :=
  (iter t).length

/-- The in-order value sequence of a tree (specification-side notion used to state
what `iter` produces). -/
def inorder : Link α → List α
  | nil => []
  | node v l r _ => inorder l ++ v :: inorder r

/-- Values still owed by the stacked ancestors of an iterator state: each stacked
node contributes its own value followed by its right subtree, most recent first. -/
def stackOut : List (Link α) → List α
  | [] => []
  | nil :: rest => stackOut rest
  | node v _ r _ :: rest => v :: inorder r ++ stackOut rest

/-- The true (recomputed) height of a tree, ignoring the cached fields. -/
def height : Link α → Nat
  | nil => 0
  | node _ l r _ => 1 + max (height l) (height r)

/-- Invariant I2: at every node the cached `height` field equals 1 + the maximum of
the children's cached heights (an absent child counting as 0). -/
def HeightCorrect : Link α → Prop
  | nil => True
  | node _ l r h => HeightCorrect l ∧ HeightCorrect r ∧ h = 1 + max (cachedHeight l) (cachedHeight r)

/-- Invariant I3 stated on true heights: at every node the two subtree heights differ
by at most one. -/
def Balanced : Link α → Prop
  | nil => True
  | node _ l r _ => Balanced l ∧ Balanced r ∧ height l ≤ height r + 1 ∧ height r ≤ height l + 1

/-- Invariant I3 as the code observes it: every node's `balance_factor()` has absolute
value at most 1. -/
def BalanceFactorBounded : Link α → Prop
  | nil => True
  | node v l r h =>
    BalanceFactorBounded l ∧ BalanceFactorBounded r ∧ (balance_factor (node v l r h)).natAbs ≤ 1

/-- Invariant I1 (BST order): values in the left subtree are below the node value,
values in the right subtree above it, recursively. -/
def BST {β : Type u} [LinearOrder β] : Link β → Prop
  | nil => True
  | node v l r _ =>
    BST l ∧ BST r ∧ (∀ x ∈ inorder l, x < v) ∧ (∀ x ∈ inorder r, v < x)

theorem cachedHeight_eq {t : Link α} (h : HeightCorrect t) : cachedHeight t = height t := by
  induction t with
  | nil => rfl
  | node v l r hh ihl ihr =>
    obtain ⟨h1, h2, h3⟩ := h
    show hh = height (node v l r hh)
    rw [h3, ihl h1, ihr h2]
    simp [height]

theorem balance_factor_eq {l r : Link α} (v : α) (h : Nat)
    (hl : HeightCorrect l) (hr : HeightCorrect r) :
    balance_factor (node v l r h) = (height l : Int) - height r := by
  simp only [balance_factor, left_height, right_height, cachedHeight_eq hl, cachedHeight_eq hr]
  split <;> omega

theorem inorder_update_height (t : Link α) : inorder (update_height t) = inorder t := by
  cases t <;> rfl

theorem inorder_rotate_right (t : Link α) : inorder (rotate_right t).1 = inorder t := by
  cases t with
  | nil => rfl
  | node v l r h =>
    cases l with
    | nil => rfl
    | node lv ll lr lh => simp [rotate_right, update_height, inorder]

theorem inorder_rotate_left (t : Link α) : inorder (rotate_left t).1 = inorder t := by
  cases t with
  | nil => rfl
  | node v l r h =>
    cases r with
    | nil => rfl
    | node rv rl rr rh => simp [rotate_left, update_height, inorder]

theorem inorder_rebalance (t : Link α) : inorder (rebalance t).1 = inorder t := by
  cases t with
  | nil => rfl
  | node v l r h =>
    rw [rebalance]
    split
    · have hr : inorder (if balance_factor r = 1 then (rotate_right r).1 else r) = inorder r := by
        split
        · exact inorder_rotate_right r
        · rfl
      simp only
      rw [inorder_rotate_left]
      simp [inorder, hr]
    · split
      · have hl : inorder (if balance_factor l = -1 then (rotate_left l).1 else l) = inorder l := by
          split
          · exact inorder_rotate_left l
          · rfl
        simp only
        rw [inorder_rotate_right]
        simp [inorder, hl]
      · rfl

theorem cachedHeight_node (v : α) (l r : Link α) (h : Nat) :
    cachedHeight (node v l r h) = h := rfl

theorem heightCorrect_node_iff (v : α) (l r : Link α) (h : Nat) :
    HeightCorrect (node v l r h) ↔
      HeightCorrect l ∧ HeightCorrect r ∧ h = 1 + max (height l) (height r) := by
  constructor
  · rintro ⟨h1, h2, h3⟩
    rw [cachedHeight_eq h1, cachedHeight_eq h2] at h3
    exact ⟨h1, h2, h3⟩
  · rintro ⟨h1, h2, h3⟩
    rw [← cachedHeight_eq h1, ← cachedHeight_eq h2] at h3
    exact ⟨h1, h2, h3⟩

theorem balanced_node_iff (v : α) (l r : Link α) (h : Nat) :
    Balanced (node v l r h) ↔
      Balanced l ∧ Balanced r ∧ height l ≤ height r + 1 ∧ height r ≤ height l + 1 :=
  Iff.rfl

theorem height_node (v : α) (l r : Link α) (h : Nat) :
    height (node v l r h) = 1 + max (height l) (height r) := rfl

/-- Under correct caches, `rotate_right` on a node with a present left child produces
the canonical rotated tree with recomputed true heights. -/
theorem rotate_right_canon (v lv : α) (ll lr r : Link α) (lh h : Nat)
    (hll : HeightCorrect ll) (hlr : HeightCorrect lr) (hr : HeightCorrect r) :
    (rotate_right (node v (node lv ll lr lh) r h)).1 =
      node lv ll (node v lr r (1 + max (height lr) (height r)))
        (1 + max (height ll) (1 + max (height lr) (height r))) := by
  simp [rotate_right, update_height, cachedHeight_node,
    cachedHeight_eq hll, cachedHeight_eq hlr, cachedHeight_eq hr]

/-- Mirror image of `rotate_right_canon`. -/
theorem rotate_left_canon (v rv : α) (l rl rr : Link α) (rh h : Nat)
    (hl : HeightCorrect l) (hrl : HeightCorrect rl) (hrr : HeightCorrect rr) :
    (rotate_left (node v l (node rv rl rr rh) h)).1 =
      node rv (node v l rl (1 + max (height l) (height rl))) rr
        (1 + max (1 + max (height l) (height rl)) (height rr)) := by
  simp [rotate_left, update_height, cachedHeight_node,
    cachedHeight_eq hl, cachedHeight_eq hrl, cachedHeight_eq hrr]

/-- Effect of the per-ancestor fix-up step (`update_height` followed by `rebalance`)
used by `insert`: if both subtrees have correct caches, are AVL-balanced, and their
heights differ by at most two, the step yields a height-correct, balanced tree whose
height is `1 + max` of the subtree heights — or exactly `max` when a rotation
collapsed a difference of two. -/
theorem rebalance_spec (v : α) (l r : Link α) (h : Nat)
    (hcl : HeightCorrect l) (hcr : HeightCorrect r)
    (bl : Balanced l) (br : Balanced r)
    (hd1 : height l ≤ height r + 2) (hd2 : height r ≤ height l + 2) :
    HeightCorrect (rebalance (update_height (node v l r h))).1 ∧
    Balanced (rebalance (update_height (node v l r h))).1 ∧
    (height (rebalance (update_height (node v l r h))).1 = 1 + max (height l) (height r) ∨
      (height (rebalance (update_height (node v l r h))).1 = max (height l) (height r) ∧
        (height l = height r + 2 ∨ height r = height l + 2))) := by
  have e1 : update_height (node v l r h) = node v l r (1 + max (height l) (height r)) := by
    simp [update_height, cachedHeight_eq hcl, cachedHeight_eq hcr]
  rw [e1]
  simp only [rebalance]
  rw [balance_factor_eq v _ hcl hcr]
  split_ifs with hbf1 hin1 hbf2 hin2
  · -- balance factor -2, right child left-heavy: double rotation (right-left case)
    rcases r with _ | ⟨rv, rl, rr, rh⟩
    · exfalso; simp only [height] at hbf1; omega
    rw [heightCorrect_node_iff] at hcr
    obtain ⟨hcrl, hcrr, hrh⟩ := hcr
    rw [balanced_node_iff] at br
    obtain ⟨brl, brr, hb1, hb2⟩ := br
    rw [balance_factor_eq rv rh hcrl hcrr] at hin1
    rcases rl with _ | ⟨sv, sl, sr, sh⟩
    · exfalso; simp only [height] at hin1; omega
    rw [heightCorrect_node_iff] at hcrl
    obtain ⟨hcsl, hcsr, hsh⟩ := hcrl
    rw [balanced_node_iff] at brl
    obtain ⟨bsl, bsr, hsb1, hsb2⟩ := brl
    rw [rotate_right_canon rv sv sl sr rr sh rh hcsl hcsr hcrr]
    have hcnew : HeightCorrect (node rv sr rr (1 + max (height sr) (height rr))) :=
      (heightCorrect_node_iff _ _ _ _).mpr ⟨hcsr, hcrr, rfl⟩
    rw [rotate_left_canon v sv l sl _ _ _ hcl hcsl hcnew]
    simp only [height_node] at hbf1 hin1 hd1 hd2 ⊢
    simp [heightCorrect_node_iff, balanced_node_iff, height_node,
      hcl, hcsl, hcsr, hcrr, bl, bsl, bsr, brr]
    all_goals omega
  · -- balance factor -2, right child not left-heavy: single left rotation
    rcases r with _ | ⟨rv, rl, rr, rh⟩
    · exfalso; simp only [height] at hbf1; omega
    rw [heightCorrect_node_iff] at hcr
    obtain ⟨hcrl, hcrr, hrh⟩ := hcr
    rw [balanced_node_iff] at br
    obtain ⟨brl, brr, hb1, hb2⟩ := br
    rw [balance_factor_eq rv rh hcrl hcrr] at hin1
    rw [rotate_left_canon v rv l rl rr rh _ hcl hcrl hcrr]
    simp only [height_node] at hbf1 hin1 hd1 hd2 ⊢
    simp [heightCorrect_node_iff, balanced_node_iff, height_node,
      hcl, hcrl, hcrr, bl, brl, brr]
    all_goals omega
  · -- balance factor +2, left child right-heavy: double rotation (left-right case)
    rcases l with _ | ⟨lv, ll, lr, lh⟩
    · exfalso; simp only [height] at hbf2; omega
    rw [heightCorrect_node_iff] at hcl
    obtain ⟨hcll, hclr, hlh⟩ := hcl
    rw [balanced_node_iff] at bl
    obtain ⟨bll, blr, hb1, hb2⟩ := bl
    rw [balance_factor_eq lv lh hcll hclr] at hin2
    rcases lr with _ | ⟨sv, sl, sr, sh⟩
    · exfalso; simp only [height] at hin2; omega
    rw [heightCorrect_node_iff] at hclr
    obtain ⟨hcsl, hcsr, hsh⟩ := hclr
    rw [balanced_node_iff] at blr
    obtain ⟨bsl, bsr, hsb1, hsb2⟩ := blr
    rw [rotate_left_canon lv sv ll sl sr sh lh hcll hcsl hcsr]
    have hcnew : HeightCorrect (node lv ll sl (1 + max (height ll) (height sl))) :=
      (heightCorrect_node_iff _ _ _ _).mpr ⟨hcll, hcsl, rfl⟩
    rw [rotate_right_canon v sv _ sr r _ _ hcnew hcsr hcr]
    simp only [height_node] at hbf2 hin2 hd1 hd2 ⊢
    simp [heightCorrect_node_iff, balanced_node_iff, height_node,
      hcr, hcll, hcsl, hcsr, br, bll, bsl, bsr]
    all_goals omega
  · -- balance factor +2, left child not right-heavy: single right rotation
    rcases l with _ | ⟨lv, ll, lr, lh⟩
    · exfalso; simp only [height] at hbf2; omega
    rw [heightCorrect_node_iff] at hcl
    obtain ⟨hcll, hclr, hlh⟩ := hcl
    rw [balanced_node_iff] at bl
    obtain ⟨bll, blr, hb1, hb2⟩ := bl
    rw [balance_factor_eq lv lh hcll hclr] at hin2
    rw [rotate_right_canon v lv ll lr r lh _ hcll hclr hcr]
    simp only [height_node] at hbf2 hin2 hd1 hd2 ⊢
    simp [heightCorrect_node_iff, balanced_node_iff, height_node,
      hcr, hcll, hclr, br, bll, blr]
    all_goals omega
  · -- balance factor in {-1, 0, 1}: no rotation
    refine ⟨(heightCorrect_node_iff _ _ _ _).mpr ⟨hcl, hcr, rfl⟩, ?_, Or.inl (height_node ..)⟩
    rw [balanced_node_iff]
    exact ⟨bl, br, by omega, by omega⟩


/-- A height-correct balanced tree has every node's `balance_factor()` in
`{-1, 0, 1}`. -/
theorem balanceFactorBounded_of_balanced (t : Link α)
    (hc : HeightCorrect t) (hb : Balanced t) : BalanceFactorBounded t := by
  induction t with
  | nil => trivial
  | node v l r h ihl ihr =>
    rw [heightCorrect_node_iff] at hc
    obtain ⟨hcl, hcr, _⟩ := hc
    rw [balanced_node_iff] at hb
    obtain ⟨bl, br, h1, h2⟩ := hb
    refine ⟨ihl hcl bl, ihr hcr br, ?_⟩
    rw [balance_factor_eq v h hcl hcr]
    omega

end Link

namespace AvlTree

variable {α : Type u} [LinearOrder α]

open Link

/-- `insert` preserves height-cache correctness (I2) and AVL balance (I3), and grows
the true height of the tree by at most one. -/
theorem insert_invariants (t : Link α) (v : α)
    (hc : HeightCorrect t) (bal : Balanced t) :
    HeightCorrect (AvlTree.insert t v).1 ∧ Balanced (AvlTree.insert t v).1 ∧
    (height (AvlTree.insert t v).1 = height t ∨ height (AvlTree.insert t v).1 = height t + 1) := by
  induction t with
  | nil =>
    refine ⟨?_, ?_, ?_⟩ <;>
      simp [AvlTree.insert, HeightCorrect, Link.Balanced, height, cachedHeight]
  | node w l r h ihl ihr =>
    rw [heightCorrect_node_iff] at hc
    obtain ⟨hcl, hcr, hhf⟩ := hc
    rw [balanced_node_iff] at bal
    obtain ⟨bl, br, hb1, hb2⟩ := bal
    simp only [AvlTree.insert]
    split_ifs with h1 h2
    · -- descend left
      obtain ⟨ihc, ibal, ihh⟩ := ihl hcl bl
      rcases hres : AvlTree.insert l v with ⟨l', flag⟩
      rw [hres] at ihc ibal ihh
      cases flag
      · simp only [hres]
        exact ⟨(heightCorrect_node_iff _ _ _ _).mpr ⟨hcl, hcr, hhf⟩,
          (balanced_node_iff _ _ _ _).mpr ⟨bl, br, hb1, hb2⟩, Or.inl trivial⟩
      · simp only [hres]
        obtain ⟨s1, s2, s3⟩ :=
          rebalance_spec w l' r h ihc hcr ibal br (by simp at ihh ⊢; omega)
            (by simp at ihh ⊢; omega)
        refine ⟨s1, s2, ?_⟩
        simp only [height_node]
        simp at ihh
        omega
    · -- descend right
      obtain ⟨ihc, ibal, ihh⟩ := ihr hcr br
      rcases hres : AvlTree.insert r v with ⟨r', flag⟩
      rw [hres] at ihc ibal ihh
      cases flag
      · simp only [hres]
        exact ⟨(heightCorrect_node_iff _ _ _ _).mpr ⟨hcl, hcr, hhf⟩,
          (balanced_node_iff _ _ _ _).mpr ⟨bl, br, hb1, hb2⟩, Or.inl trivial⟩
      · simp only [hres]
        obtain ⟨s1, s2, s3⟩ :=
          rebalance_spec w l r' h hcl ihc bl ibal (by simp at ihh ⊢; omega)
            (by simp at ihh ⊢; omega)
        refine ⟨s1, s2, ?_⟩
        simp only [height_node]
        simp at ihh
        omega
    · -- equal value: unchanged
      exact ⟨(heightCorrect_node_iff _ _ _ _).mpr ⟨hcl, hcr, hhf⟩,
        (balanced_node_iff _ _ _ _).mpr ⟨bl, br, hb1, hb2⟩, Or.inl rfl⟩

/-- A list of the shape `L ++ v :: R` is strictly sorted exactly when both parts are
sorted, everything in `L` is below `v`, and everything in `R` is above `v`. -/
theorem sorted_append_middle (v : α) (L R : List α) :
    (L ++ v :: R).Sorted (· < ·) ↔
      L.Sorted (· < ·) ∧ R.Sorted (· < ·) ∧ (∀ x ∈ L, x < v) ∧ (∀ y ∈ R, v < y) := by
  show (L ++ v :: R).Pairwise _ ↔ _
  rw [List.pairwise_append, List.pairwise_cons]
  constructor
  · rintro ⟨hL, ⟨hv, hR⟩, hcross⟩
    exact ⟨hL, hR, fun x hx => hcross x hx v (List.mem_cons_self v R), hv⟩
  · rintro ⟨hL, hR, hLv, hvR⟩
    refine ⟨hL, ⟨hvR, hR⟩, ?_⟩
    intro x hx y hy
    rcases List.mem_cons.mp hy with rfl | hy
    · exact hLv x hx
    · exact lt_trans (hLv x hx) (hvR y hy)

/-- Invariant I1 is equivalent to strict sortedness of the in-order sequence. -/
theorem bst_iff_sorted (t : Link α) : BST t ↔ (inorder t).Sorted (· < ·) := by
  induction t with
  | nil => simp [BST, inorder]
  | node v l r h ihl ihr =>
    simp only [BST, inorder, sorted_append_middle, ihl, ihr]

/-- On a BST, `contains` decides membership in the in-order sequence. -/
theorem contains_iff_mem (t : Link α) (hb : BST t) (v : α) :
    AvlTree.contains t v = true ↔ v ∈ inorder t := by
  induction t with
  | nil => simp [AvlTree.contains, inorder]
  | node w l r h ihl ihr =>
    simp only [BST] at hb
    obtain ⟨hbl, hbr, hlt, hgt⟩ := hb
    simp only [AvlTree.contains, inorder, List.mem_append, List.mem_cons]
    split_ifs with h1 h2
    · rw [ihl hbl]
      constructor
      · exact Or.inl
      · rintro (hx | rfl | hx)
        · exact hx
        · exact absurd h1 (lt_irrefl _)
        · exact absurd (lt_trans h1 (hgt v hx)) (lt_irrefl v)
    · rw [ihr hbr]
      constructor
      · exact fun hx => Or.inr (Or.inr hx)
      · rintro (hx | rfl | hx)
        · exact absurd (lt_trans h2 (hlt v hx)) (lt_irrefl w)
        · exact absurd h2 (lt_irrefl _)
        · exact hx
    · have hvw : v = w := le_antisymm (not_lt.mp h2) (not_lt.mp h1)
      subst hvw
      simp

/-- `insert` reports `false` exactly when the inserted value was already found by the
three-way descent (the same descent `contains` performs). -/
theorem insert_flag (t : Link α) (v : α) :
    (AvlTree.insert t v).2 = false ↔ AvlTree.contains t v = true := by
  induction t with
  | nil => simp [AvlTree.insert, AvlTree.contains]
  | node w l r h ihl ihr =>
    simp only [AvlTree.insert, AvlTree.contains]
    split_ifs with h1 h2
    · rcases hres : AvlTree.insert l v with ⟨l', flag⟩
      rw [hres] at ihl
      cases flag
      · simpa [hres] using ihl
      · simpa [hres] using ihl
    · rcases hres : AvlTree.insert r v with ⟨r', flag⟩
      rw [hres] at ihr
      cases flag
      · simpa [hres] using ihr
      · simpa [hres] using ihr
    · simp

/-- When the value is already present, `insert` returns the tree unchanged together
with `false`: the Rust loop exits on `Ordering::Equal` before any mutation. -/
theorem insert_of_contains (t : Link α) (v : α) (h : AvlTree.contains t v = true) :
    AvlTree.insert t v = (t, false) := by
  induction t with
  | nil => simp [AvlTree.contains] at h
  | node w l r hh ihl ihr =>
    simp only [AvlTree.contains] at h
    simp only [AvlTree.insert]
    split_ifs with h1 h2
    · rw [if_pos h1] at h
      rw [ihl h]
    · rw [if_neg h1, if_pos h2] at h
      rw [ihr h]
    · rfl

/-- `insert` preserves the BST invariant and adds exactly the inserted value to the
in-order sequence. -/
theorem insert_bst (t : Link α) (v : α) (hb : BST t) :
    BST (AvlTree.insert t v).1 ∧
      ∀ x, x ∈ inorder (AvlTree.insert t v).1 ↔ x = v ∨ x ∈ inorder t := by
  induction t with
  | nil => simp [AvlTree.insert, BST, inorder]
  | node w l r h ihl ihr =>
    simp only [BST] at hb
    obtain ⟨hbl, hbr, hlt, hgt⟩ := hb
    simp only [AvlTree.insert]
    split_ifs with h1 h2
    · obtain ⟨ibst, imem⟩ := ihl hbl
      rcases hres : AvlTree.insert l v with ⟨l', flag⟩
      rw [hres] at ibst imem
      cases flag
      · have hcv : AvlTree.contains l v = true := by
          have hfl := insert_flag l v
          rw [hres] at hfl
          simpa using hfl
        have hvmem : v ∈ inorder l := (contains_iff_mem l hbl v).mp hcv
        simp only [hres]
        refine ⟨⟨hbl, hbr, hlt, hgt⟩, ?_⟩
        intro x
        constructor
        · exact Or.inr
        · rintro (rfl | hx)
          · simp only [inorder, List.mem_append]
            exact Or.inl hvmem
          · exact hx
      · simp only [hres]
        have hinor : inorder (rebalance (update_height (node w l' r h))).1 =
            inorder l' ++ w :: inorder r := by
          rw [inorder_rebalance, inorder_update_height]
          rfl
        constructor
        · rw [bst_iff_sorted, hinor, sorted_append_middle]
          refine ⟨(bst_iff_sorted l').mp ibst, (bst_iff_sorted r).mp hbr, ?_, hgt⟩
          intro x hx
          rcases (imem x).mp hx with rfl | hx
          · exact h1
          · exact hlt x hx
        · intro x
          rw [hinor]
          simp only [List.mem_append, List.mem_cons, imem x, inorder]
          tauto
    · obtain ⟨ibst, imem⟩ := ihr hbr
      rcases hres : AvlTree.insert r v with ⟨r', flag⟩
      rw [hres] at ibst imem
      cases flag
      · have hcv : AvlTree.contains r v = true := by
          have hfl := insert_flag r v
          rw [hres] at hfl
          simpa using hfl
        have hvmem : v ∈ inorder r := (contains_iff_mem r hbr v).mp hcv
        simp only [hres]
        refine ⟨⟨hbl, hbr, hlt, hgt⟩, ?_⟩
        intro x
        constructor
        · exact Or.inr
        · rintro (rfl | hx)
          · simp only [inorder, List.mem_append, List.mem_cons]
            exact Or.inr (Or.inr hvmem)
          · exact hx
      · simp only [hres]
        have hinor : inorder (rebalance (update_height (node w l r' h))).1 =
            inorder l ++ w :: inorder r' := by
          rw [inorder_rebalance, inorder_update_height]
          rfl
        constructor
        · rw [bst_iff_sorted, hinor, sorted_append_middle]
          refine ⟨(bst_iff_sorted l).mp hbl, (bst_iff_sorted r').mp ibst, hlt, ?_⟩
          intro x hx
          rcases (imem x).mp hx with rfl | hx
          · exact h2
          · exact hgt x hx
        · intro x
          rw [hinor]
          simp only [List.mem_append, List.mem_cons, imem x, inorder]
          tauto
    · have hvw : v = w := le_antisymm (not_lt.mp h2) (not_lt.mp h1)
      subst hvw
      refine ⟨⟨hbl, hbr, hlt, hgt⟩, ?_⟩
      intro x
      simp only [inorder, List.mem_append, List.mem_cons]
      tauto

/-- Folding `insert` over any list preserves the height-cache and balance
invariants. -/
theorem foldl_insert_invariants (vs : List α) :
    ∀ t : Link α, HeightCorrect t → Balanced t →
      HeightCorrect (vs.foldl (fun t v => (AvlTree.insert t v).1) t) ∧
      Balanced (vs.foldl (fun t v => (AvlTree.insert t v).1) t) := by
  induction vs with
  | nil => exact fun t h1 h2 => ⟨h1, h2⟩
  | cons a as ih =>
    intro t h1 h2
    simp only [List.foldl_cons]
    obtain ⟨i1, i2, _⟩ := insert_invariants t a h1 h2
    exact ih _ i1 i2

/-- Every tree built by inserting a sequence of values has correct height caches and
is AVL-balanced. -/
theorem from_iter_invariants (vs : List α) :
    HeightCorrect (from_iter vs) ∧ Balanced (from_iter vs) := by
  have h := foldl_insert_invariants vs Link.nil trivial trivial
  simpa [from_iter, new] using h

/-- Folding `insert` over any list preserves the BST invariant and accumulates
exactly the list's values into the in-order sequence. -/
theorem foldl_insert_bst (vs : List α) :
    ∀ t : Link α, BST t →
      BST (vs.foldl (fun t v => (AvlTree.insert t v).1) t) ∧
      ∀ x, x ∈ inorder (vs.foldl (fun t v => (AvlTree.insert t v).1) t) ↔
        x ∈ vs ∨ x ∈ inorder t := by
  induction vs with
  | nil => exact fun t hb => ⟨hb, fun x => by simp⟩
  | cons a as ih =>
    intro t hb
    simp only [List.foldl_cons]
    obtain ⟨ibst, imem⟩ := insert_bst t a hb
    obtain ⟨fbst, fmem⟩ := ih _ ibst
    refine ⟨fbst, fun x => ?_⟩
    rw [fmem x, imem x]
    simp only [List.mem_cons]
    tauto

/-- Every tree built by inserting a sequence of values is a BST. -/
theorem from_iter_bst (vs : List α) : BST (from_iter vs) := by
  have h := (foldl_insert_bst vs Link.nil trivial).1
  simpa [from_iter, new] using h

/-- The in-order sequence of `from_iter vs` holds exactly the values of `vs`. -/
theorem from_iter_mem (vs : List α) (x : α) :
    x ∈ inorder (from_iter vs) ↔ x ∈ vs := by
  have h := ((foldl_insert_bst vs Link.nil trivial).2 x)
  simpa [from_iter, new, inorder] using h

end AvlTree


namespace Link

variable {α : Type u}

/-- Running the iterator loop with enough fuel produces the in-order sequence of the
cursor followed by the values owed by the stacked ancestors.  The fuel bound is the
state weight, which every emission strictly decreases; the push-left step keeps the
weight while descending, so the inner induction is on the cursor. -/
theorem iterLoop_adequate :
    ∀ (fuel : Nat) (cur : Link α) (stack : List (Link α)),
      iterWeight stack cur < fuel → (∀ p ∈ stack, p ≠ nil) →
      iterLoop fuel stack cur = inorder cur ++ stackOut stack := by
  intro fuel
  induction fuel with
  | zero => exact fun cur stack hw _ => absurd hw (Nat.not_lt_zero _)
  | succ f ihf =>
    intro cur
    induction cur with
    | nil =>
      intro stack hw hv
      match stack with
      | [] => simp [iterLoop, iterNext, stackOut, inorder]
      | nil :: rest => exact absurd rfl (hv nil (List.mem_cons_self _ _))
      | node pv pl pr ph :: rest =>
        have hstep : iterLoop (f + 1) (node pv pl pr ph :: rest) nil =
            pv :: iterLoop f rest pr := rfl
        rw [hstep]
        have hw2 : iterWeight rest pr < f := by
          simp only [iterWeight, stackWeight, size, List.map_cons, List.sum_cons] at hw ⊢
          omega
        rw [ihf pr rest hw2 (fun p hp => hv p (List.mem_cons_of_mem _ hp))]
        simp [stackOut, inorder]
    | node v0 l r h0 ihl ihr =>
      intro stack hw hv
      rcases l with _ | ⟨lv, ll, lr, lh⟩
      · rcases r with _ | ⟨rv, rl, rr, rh⟩
        · have hstep : iterLoop (f + 1) stack (node v0 nil nil h0) =
              v0 :: iterLoop f stack nil := rfl
          rw [hstep]
          have hw2 : iterWeight stack nil < f := by
            simp only [iterWeight, size] at hw ⊢
            omega
          rw [ihf nil stack hw2 hv]
          simp [inorder]
        · have hstep : iterLoop (f + 1) stack (node v0 nil (node rv rl rr rh) h0) =
              v0 :: iterLoop f stack (node rv rl rr rh) := rfl
          rw [hstep]
          have hw2 : iterWeight stack (node rv rl rr rh) < f := by
            simp only [iterWeight, size] at hw ⊢
            omega
          rw [ihf _ stack hw2 hv]
          simp [inorder]
      · have hstep : iterLoop (f + 1) stack (node v0 (node lv ll lr lh) r h0) =
            iterLoop (f + 1) (node v0 (node lv ll lr lh) r h0 :: stack) (node lv ll lr lh) := rfl
        rw [hstep]
        have hw2 : iterWeight (node v0 (node lv ll lr lh) r h0 :: stack) (node lv ll lr lh) < f + 1 := by
          simp only [iterWeight, stackWeight, size, List.map_cons, List.sum_cons] at hw ⊢
          omega
        have hv2 : ∀ p ∈ node v0 (node lv ll lr lh) r h0 :: stack, p ≠ nil := by
          intro p hp
          rcases List.mem_cons.mp hp with rfl | hp
          · intro hcon
            exact Link.noConfusion hcon
          · exact hv p hp
        rw [ihl _ hw2 hv2]
        simp [inorder, stackOut]
    
/-- `iter` produces exactly the in-order sequence of the tree. -/
theorem iter_eq_inorder (t : Link α) : iter t = inorder t := by
  have h := iterLoop_adequate (iterWeight [] t + 1) t []
    (Nat.lt_succ_self _) (by simp)
  simpa [iter, stackOut] using h

/-- `len` counts the in-order sequence. -/
theorem len_eq_inorder_length (t : Link α) : len t = (inorder t).length := by
  rw [len, iter_eq_inorder]

end Link

section Claims

open Link AvlTree

variable {α : Type u} [LinearOrder α]

/-- C1: for every sequence of distinct values inserted in any order into an AvlTree,
iterating the tree afterwards (`iter`) yields exactly those values in strictly
ascending order of the order relation. -/
theorem claim_insert_iter_ascending (vs : List α) (hnd : vs.Nodup) :
    (iter (from_iter vs)).Sorted (· < ·) ∧ List.Perm (iter (from_iter vs)) vs := by
  have hsorted : (inorder (from_iter vs)).Sorted (· < ·) :=
    (bst_iff_sorted (from_iter vs)).mp (from_iter_bst vs)
  refine ⟨by rw [iter_eq_inorder]; exact hsorted, ?_⟩
  rw [iter_eq_inorder]
  rw [List.perm_ext_iff_of_nodup hsorted.nodup hnd]
  exact from_iter_mem vs

/-- Witness for C1 at the concrete input `[3, 1, 2]`. -/
theorem claim_insert_iter_ascending_witness :
    ([3, 1, 2] : List ℕ).Nodup ∧
      ((iter (from_iter ([3, 1, 2] : List ℕ))).Sorted (· < ·) ∧
        List.Perm (iter (from_iter ([3, 1, 2] : List ℕ))) [3, 1, 2]) :=
  ⟨by decide, claim_insert_iter_ascending [3, 1, 2] (by decide)⟩

/-- C2: after every insert call returns, every node in the tree has
`|balance_factor()| ≤ 1`. -/
theorem claim_insert_balanced (vs : List α) : BalanceFactorBounded (from_iter vs) :=
  balanceFactorBounded_of_balanced _ (from_iter_invariants vs).1 (from_iter_invariants vs).2

/-- C3: after every insert call returns, every node's cached height field equals
1 + max of its children's cached heights, an absent child counting as 0 (a newly
attached leaf carries 1 = 1 + max 0 0). -/
theorem claim_insert_height_correct (vs : List α) : HeightCorrect (from_iter vs) :=
  (from_iter_invariants vs).1

/-- C4: after any sequence of insertions, `contains` returns true exactly for the
values that were inserted. -/
theorem claim_contains_agreement (vs : List α) (v : α) :
    AvlTree.contains (from_iter vs) v = true ↔ v ∈ vs := by
  rw [contains_iff_mem _ (from_iter_bst vs) v]
  exact from_iter_mem vs v

/-- C5: inserting a value already present returns false and changes nothing
observable — the result is the very same tree, hence the in-order sequence, the
size, and every node's height and balance factor are identical. -/
theorem claim_duplicate_insert (t : Link α) (v : α)
    (h : AvlTree.contains t v = true) :
    AvlTree.insert t v = (t, false) ∧
      inorder (AvlTree.insert t v).1 = inorder t ∧
      len (AvlTree.insert t v).1 = len t ∧
      height (AvlTree.insert t v).1 = height t :=
  have he := insert_of_contains t v h
  ⟨he, by rw [he], by rw [he], by rw [he]⟩

/-- Witness for C5: re-inserting 1 into the tree built from `[2, 1, 3]`. -/
theorem claim_duplicate_insert_witness :
    AvlTree.contains (from_iter ([2, 1, 3] : List ℕ)) 1 = true ∧
      (AvlTree.insert (from_iter ([2, 1, 3] : List ℕ)) 1 = (from_iter [2, 1, 3], false) ∧
        inorder (AvlTree.insert (from_iter ([2, 1, 3] : List ℕ)) 1).1 =
          inorder (from_iter [2, 1, 3]) ∧
        len (AvlTree.insert (from_iter ([2, 1, 3] : List ℕ)) 1).1 =
          len (from_iter [2, 1, 3]) ∧
        height (AvlTree.insert (from_iter ([2, 1, 3] : List ℕ)) 1).1 =
          height (from_iter [2, 1, 3])) :=
  ⟨by decide, claim_duplicate_insert _ 1 (by decide)⟩

/-- C6: `rebalance` dispatches on the balance factor: at -2 it first rotates the
right child right when that child's balance factor is +1, then rotates the node left
and returns true; at +2 it first rotates the left child left when that child's
balance factor is -1, then rotates the node right and returns true; for any other
balance factor it changes nothing and returns false. -/
theorem claim_rebalance_dispatch {β : Type u} (v : β) (l r : Link β) (h : Nat) :
    (balance_factor (node v l r h) = -2 →
      rebalance (node v l r h) =
        ((rotate_left (node v l
          (if balance_factor r = 1 then (rotate_right r).1 else r) h)).1, true)) ∧
    (balance_factor (node v l r h) = 2 →
      rebalance (node v l r h) =
        ((rotate_right (node v
          (if balance_factor l = -1 then (rotate_left l).1 else l) r h)).1, true)) ∧
    (balance_factor (node v l r h) ≠ -2 → balance_factor (node v l r h) ≠ 2 →
      rebalance (node v l r h) = (node v l r h, false)) := by
  refine ⟨fun h1 => ?_, fun h2 => ?_, fun h1 h2 => ?_⟩
  · simp only [rebalance, if_pos h1]
  · have hne : balance_factor (node v l r h) ≠ -2 := by rw [h2]; decide
    simp only [rebalance, if_neg hne, if_pos h2]
  · simp only [rebalance, if_neg h1, if_neg h2]

/-- Witness for C6: a right-heavy chain, a left-heavy chain, and a leaf. -/
theorem claim_rebalance_dispatch_witness :
    (balance_factor (node (1 : ℕ) nil (node 2 nil (node 3 nil nil 1) 2) 3) = -2 ∧
      rebalance (node (1 : ℕ) nil (node 2 nil (node 3 nil nil 1) 2) 3) =
        ((rotate_left (node (1 : ℕ) nil
          (if balance_factor (node (2 : ℕ) nil (node 3 nil nil 1) 2) = 1
            then (rotate_right (node (2 : ℕ) nil (node 3 nil nil 1) 2)).1
            else node (2 : ℕ) nil (node 3 nil nil 1) 2) 3)).1, true)) ∧
    (balance_factor (node (3 : ℕ) (node 2 (node 1 nil nil 1) nil 2) nil 3) = 2 ∧
      rebalance (node (3 : ℕ) (node 2 (node 1 nil nil 1) nil 2) nil 3) =
        ((rotate_right (node (3 : ℕ)
          (if balance_factor (node (2 : ℕ) (node 1 nil nil 1) nil 2) = -1
            then (rotate_left (node (2 : ℕ) (node 1 nil nil 1) nil 2)).1
            else node (2 : ℕ) (node 1 nil nil 1) nil 2) nil 3)).1, true)) ∧
    (balance_factor (node (1 : ℕ) nil nil 1) ≠ -2 ∧
      balance_factor (node (1 : ℕ) nil nil 1) ≠ 2 ∧
      rebalance (node (1 : ℕ) nil nil 1) = (node 1 nil nil 1, false)) :=
  ⟨⟨by decide, (claim_rebalance_dispatch 1 nil (node 2 nil (node 3 nil nil 1) 2) 3).1 (by decide)⟩,
    ⟨by decide, (claim_rebalance_dispatch 3 (node 2 (node 1 nil nil 1) nil 2) nil 3).2.1 (by decide)⟩,
    by decide, by decide,
    (claim_rebalance_dispatch 1 nil nil 1).2.2 (by decide) (by decide)⟩

/-- C7: `rotate_right` on a node with no left child changes nothing and returns
false; with a present left child it returns true, moves the left child's value to
the subtree root, the former root value to the new right child, hands the left
child's former right subtree to that right child as its left subtree, and recomputes
the moved-down node's height before the new root's height (the root's new height
field reads the child's freshly recomputed one). -/
theorem claim_rotate_right_effect {β : Type u} (v lv : β) (ll lr r : Link β) (lh h : Nat) :
    rotate_right (node v nil r h) = (node v nil r h, false) ∧
    rotate_right (node v (node lv ll lr lh) r h) =
      (node lv ll (node v lr r (1 + max (cachedHeight lr) (cachedHeight r)))
        (1 + max (cachedHeight ll) (1 + max (cachedHeight lr) (cachedHeight r))), true) :=
  ⟨rfl, rfl⟩

/-- C8: `balance_factor` returns exactly the signed difference of the cached subtree
heights (the two-sided branch never underflows an unsigned subtraction), and on
every tree reachable by insertions its value lies in {-1, 0, 1}. -/
theorem claim_balance_factor_signed :
    (∀ {β : Type u} (t : Link β),
      balance_factor t = (left_height t : Int) - (right_height t : Int)) ∧
    (∀ vs : List α, BalanceFactorBounded (from_iter vs)) := by
  constructor
  · intro β t
    simp only [balance_factor]
    split <;> omega
  · intro vs
    exact balanceFactorBounded_of_balanced _
      (from_iter_invariants vs).1 (from_iter_invariants vs).2

/-- C10: a tree produced by `AvlTree::new` or `Default::default` is empty: every
`contains` query returns false, `len` returns 0, and `iter` yields no elements. -/
theorem claim_empty_tree (v : α) :
    AvlTree.contains (new : Link α) v = false ∧ len (new : Link α) = 0 ∧
      iter (new : Link α) = [] ∧
      AvlTree.contains (defaultTree : Link α) v = false ∧
      len (defaultTree : Link α) = 0 ∧ iter (defaultTree : Link α) = [] :=
  ⟨rfl, rfl, rfl, rfl, rfl, rfl⟩

end Claims
